import Mathlib

/-!
Verification of the SeQUeNCe simulation kernel (sequential `Timeline` in
`src/kernel/timeline.py` and `ParallelTimeline` / `AsyncParallelTimeline` in
`src/kernel/p_timeline.py`) against its natural-language specification.

Simulated times are non-negative integers (picoseconds); the Python code also
uses `float('inf')` for `stop_time`, empty-queue `top_time` and
`buffer_min_ts`, so times that may be infinite are modelled as `WithTop Nat`.
Event execution (`event.process.run()`) is domain code outside the kernel; it
is modelled as a handler function `Event → List Event` giving the events that
the process schedules on the timeline when it runs.  Loops are modelled with
explicit fuel; `none` means the fuel ran out or a kernel `assert` failed.
-/

/-- Times that may be infinite: `float('inf')` in the Python code. -/
abbrev TimePS := WithTop Nat

/-- Modelled from the spec: `Process.owner` in `src/kernel/process.py` (not in
`src/`) is "either a direct entity reference or a string name for a foreign
entity"; an entity reference is identified by the entity's globally unique
name. -/
inductive Owner where
  | entity (name : String)
  | str (name : String)
deriving Repr, DecidableEq

/-- Modelled from the spec: a `Process` (in `src/kernel/process.py`, not in
`src/`) holds an owner, a method selector and an argument list (arguments kept
opaque). -/
structure Process where
  owner : Owner
  activation : String
  act_params : List Nat
deriving Repr, DecidableEq

/-- Modelled from the spec: an `Event` (in `src/kernel/event.py`, not in
`src/`) has a timestamp, a priority used as tiebreak, a process, and a
validity flag.  The field `seq` is the insertion sequence number: it gives the
FIFO tiebreak of the spec's ordering contract and stands for the Python
object's identity. -/
structure Event where
  time : Nat
  priority : Nat
  seq : Nat
  process : Process
  valid : Bool
deriving Repr, DecidableEq

/-- Python `Event.is_invalid()`: true when the event has been invalidated. -/
def Event.is_invalid (e : Event) : Bool := !e.valid

/-- Ordering key of the spec's EventList contract: strict weak order on
`(time, priority, insertion_seq)`. -/
def evKey (e : Event) : Nat × Nat × Nat := (e.time, e.priority, e.seq)

/-- Lexicographic comparison of event keys. -/
def keyLe (a b : Nat × Nat × Nat) : Bool :=
  decide (a.1 < b.1 ∨ (a.1 = b.1 ∧ (a.2.1 < b.2.1 ∨ (a.2.1 = b.2.1 ∧ a.2.2 ≤ b.2.2))))

/-- Modelled from the spec: `EventList.pop` (in `src/kernel/eventlist.py`, not
in `src/`) removes and returns the minimum event by `(time, priority,
insertion_seq)`.  The event list is modelled as the plain list of pending
events; `pickMin` returns the minimal element (leftmost among equals) and the
remaining list. -/
def pickMin : List Event → Option (Event × List Event)
  | [] => none
  | e :: es =>
    match pickMin es with
    | none => some (e, [])
    | some (m, rest) => if keyLe (evKey e) (evKey m) then (e, es) else (m, e :: rest)

/-- Modelled from the spec: `EventList.remove` uses lazy invalidation — "mark
invalid or extract; invalid events are silently dropped on pop".  The event is
identified by its insertion sequence number (Python object identity). -/
def removeFromList (l : List Event) (e : Event) : List Event :=
  l.map (fun x => if x.seq = e.seq then { x with valid := false } else x)

/-- State of the sequential `Timeline` (src/kernel/timeline.py): the pending
events, current time, stop time and the two statistics counters. -/
structure Timeline where
  events : List Event
  time : TimePS
  stop_time : TimePS
  schedule_counter : Nat
  run_counter : Nat
deriving Repr, DecidableEq

/-- Python `Timeline.schedule`: increment `schedule_counter` and push the
event onto the event list. -/
def Timeline.schedule (tl : Timeline) (e : Event) : Timeline :=
  { tl with schedule_counter := tl.schedule_counter + 1, events := tl.events ++ [e] }

/-- Schedule a batch of events in order (the events a process schedules while
it runs, each going through `Timeline.schedule`). -/
def Timeline.scheduleAll (tl : Timeline) (es : List Event) : Timeline :=
  es.foldl Timeline.schedule tl

/-- Python `Timeline.remove_event`: pass-through to the event list's remove. -/
def Timeline.remove_event (tl : Timeline) (e : Event) : Timeline :=
  { tl with events := removeFromList tl.events e }

/-- Python `Timeline.now`. -/
def Timeline.now (tl : Timeline) : TimePS := tl.time

/-- The loop of Python `Timeline.run` (src/kernel/timeline.py lines 94-108).
Each iteration: if the event list is empty, stop; pop the minimum event; if
its time is `>= stop_time`, re-schedule it and stop; assert `time <= e.time`
(failure gives `none`); skip the event if invalid; otherwise advance `time` to
`e.time`, run the process (handler `h` gives the events it schedules) and
increment `run_counter`.  Returns the final state, the executed events in
order, and whether the stop-time boundary branch was taken. -/
def runLoop (h : Event → List Event) : Nat → Timeline → Option (Timeline × List Event × Bool)
  | 0, _ => none
  | fuel + 1, tl =>
    match pickMin tl.events with
    | none => some (tl, [], false)
    | some (e, rest) =>
      if tl.stop_time ≤ (e.time : TimePS) then
        some (Timeline.schedule { tl with events := rest } e, [], true)
      else if tl.time ≤ (e.time : TimePS) then
        if e.is_invalid then
          runLoop h fuel { tl with events := rest }
        else
          (runLoop h fuel (Timeline.scheduleAll
            { tl with
                events := rest
                time := (e.time : TimePS)
                run_counter := tl.run_counter + 1 } (h e))).map
            (fun r => (r.1, e :: r.2.1, r.2.2))
      else none

/-- State of `AsyncParallelTimeline` (src/kernel/p_timeline.py lines 158-195):
a `Timeline` plus the lookahead, the names of the entities moved onto it, and
`new_events`, the events its entities scheduled during the last `run`. -/
structure ATimeline extends Timeline where
  lookahead : Nat
  entities : List String
  new_events : List Event
  exchange_counter : Nat
deriving Repr, DecidableEq

/-- Python `AsyncParallelTimeline.top_time`: the soonest event's time plus the
lookahead, or infinity when the queue is empty. -/
def ATimeline.top_time (a : ATimeline) : TimePS :=
  match pickMin a.events with
  | some (e, _) => ((e.time + a.lookahead : Nat) : TimePS)
  | none => ⊤

/-- Python `AsyncParallelTimeline.schedule`: during an async run, scheduled
events are only collected into `new_events`. -/
def ATimeline.schedule (a : ATimeline) (e : Event) : ATimeline :=
  { a with new_events := a.new_events ++ [e] }

/-- Python `AsyncParallelTimeline.import_event` (lines 192-195): if the
event's process owner is a string, it is replaced by the entity resolved from
that name (`get_entity_by_name`); the event is then pushed directly onto the
event list. -/
def ATimeline.import_event (a : ATimeline) (e : Event) : ATimeline :=
  let e' :=
    match e.process.owner with
    | Owner.str n => { e with process := { e.process with owner := Owner.entity n } }
    | Owner.entity _ => e
  { a with toTimeline := { a.toTimeline with events := a.events ++ [e'] } }

/-- Loop of Python `AsyncParallelTimeline.run` (lines 174-187), after
`new_events` has been reset: while the queue is non-empty and its top is
before `stop_time`, pop; skip if invalid; assert `time <= e.time`; advance
`time`, run the process (handler `hA` gives the events it schedules, which go
through `ATimeline.schedule` into `new_events`) and increment `run_counter`. -/
def asyncLoop (hA : Event → List Event) : Nat → ATimeline → TimePS → Option ATimeline
  | 0, _, _ => none
  | fuel + 1, a, stop =>
    match pickMin a.events with
    | none => some a
    | some (e, rest) =>
      if (e.time : TimePS) < stop then
        if e.is_invalid then
          asyncLoop hA fuel { a with toTimeline := { a.toTimeline with events := rest } } stop
        else if a.time ≤ (e.time : TimePS) then
          asyncLoop hA fuel
            ((hA e).foldl ATimeline.schedule
              { a with toTimeline :=
                  { a.toTimeline with
                      events := rest
                      time := (e.time : TimePS)
                      run_counter := a.run_counter + 1 } }) stop
        else none
      else some a

/-- Python `AsyncParallelTimeline.run`: reset `new_events`, then run the loop
up to the given stop time. -/
def ATimeline.run (hA : Event → List Event) (fuel : Nat) (a : ATimeline) (stop : TimePS) :
    Option ATimeline :=
  asyncLoop hA fuel { a with new_events := [] } stop

/-- State of `ParallelTimeline` (src/kernel/p_timeline.py): a `Timeline` plus
the MPI rank, the foreign-entity map, the per-rank outbound event buffers, the
lookahead, the async sub-timeline with its opted-in entity set, the tracked
minimum outbound timestamp and the synchronization counters.  `flush_count`
counts the calls of `quantum_manager.flush_before_sync()`. -/
structure PTimeline extends Timeline where
  id : Nat
  foreign_entities : List (String × Nat)
  event_buffer : List (List Event)
  lookahead : Nat
  async_tl : ATimeline
  async_entities : List String
  buffer_min_ts : TimePS
  sync_counter : Nat
  exchange_counter : Nat
  flush_count : Nat
deriving Repr, DecidableEq

/-- Python `ParallelTimeline.top_time` (lines 84-94): timestamp of the soonest
event in the local queue, or infinity when the queue is empty. -/
def PTimeline.top_time (p : PTimeline) : TimePS :=
  match pickMin p.events with
  | some (e, _) => (e.time : TimePS)
  | none => ⊤

/-- Python `ParallelTimeline.schedule` (lines 67-82).  A string owner found in
`foreign_entities` is buffered for its rank (updating `buffer_min_ts` unless
the owner is in `async_entities`) and counted; a string owner found among the
async sub-timeline's entities is imported there; any other owner goes to the
inherited `Timeline.schedule`. -/
def PTimeline.schedule (p : PTimeline) (e : Event) : PTimeline :=
  match e.process.owner with
  | Owner.str name =>
    match (p.foreign_entities.lookup name : Option Nat) with
    | some tl_id =>
      { p with
          buffer_min_ts :=
            if name ∈ p.async_entities then p.buffer_min_ts
            else min p.buffer_min_ts (e.time : TimePS)
          event_buffer := p.event_buffer.set tl_id ((p.event_buffer.getD tl_id []) ++ [e])
          toTimeline := { p.toTimeline with schedule_counter := p.schedule_counter + 1 } }
    | none =>
      if name ∈ p.async_tl.entities then
        { p with async_tl := p.async_tl.import_event e }
      else
        { p with toTimeline := p.toTimeline.schedule e }
  | Owner.entity _ => { p with toTimeline := p.toTimeline.schedule e }

/-- Local minimum pending time of a worker, as read at the start of an
iteration of `ParallelTimeline.run` (line 99): the minimum of the tracked
outbound-buffer timestamp, the local queue top and the async sub-timeline
top. -/
def PTimeline.localMin (p : PTimeline) : TimePS :=
  min p.buffer_min_ts (min p.top_time p.async_tl.top_time)

/-- One payload of the all-to-all exchange: the events destined to the
receiver together with the sender's piggy-backed local minimum (the Python
code appends `min_time` to each outbound buffer before `alltoall`). -/
abbrev Payload := List Event × TimePS

/-- The `min_time` a worker holds after folding the piggy-backed minima of its
inbox over its own local minimum (lines 99 and 110-111). -/
def iterMinTime (p : PTimeline) (inbox : List Payload) : TimePS :=
  List.foldl min p.localMin (inbox.map Prod.snd)

/-- Absorb phase (lines 110-114): each received event increments
`exchange_counter` and is scheduled through `ParallelTimeline.schedule`. -/
def absorbEvents (p : PTimeline) (evs : List Event) : PTimeline :=
  evs.foldl
    (fun q e => PTimeline.schedule { q with exchange_counter := q.exchange_counter + 1 } e) p

/-- Execute phase of `ParallelTimeline.run` (lines 130-138): while the local
queue is non-empty and its top is before `sync_time`, pop; skip if invalid;
assert `time <= e.time`; advance `time`, run the process (handler `h` gives
the events it schedules, which go through `ParallelTimeline.schedule`) and
increment `run_counter`.  Returns the final state and the executed events in
order. -/
def execPhase (h : Event → List Event) :
    Nat → PTimeline → TimePS → Option (PTimeline × List Event)
  | 0, _, _ => none
  | fuel + 1, p, sync_time =>
    match pickMin p.events with
    | none => some (p, [])
    | some (e, rest) =>
      if (e.time : TimePS) < sync_time then
        if e.is_invalid then
          execPhase h fuel { p with toTimeline := { p.toTimeline with events := rest } } sync_time
        else if p.time ≤ (e.time : TimePS) then
          (execPhase h fuel
            ((h e).foldl PTimeline.schedule
              { p with toTimeline :=
                  { p.toTimeline with
                      events := rest
                      time := (e.time : TimePS)
                      run_counter := p.run_counter + 1 } }) sync_time).map
            (fun r => (r.1, e :: r.2))
        else none
      else some (p, [])

/-- Result of one iteration of the `ParallelTimeline.run` loop body. -/
inductive PIterResult where
  | breakLoop (p : PTimeline) (min_time : TimePS)
  | continued (p : PTimeline) (min_time sync_time : TimePS) (executed : List Event)
deriving Repr, DecidableEq

/-- Lines 106-108 of `ParallelTimeline.run`: clear all outbound buffers and
reset `buffer_min_ts` after the all-to-all exchange. -/
def clearBuffers (p : PTimeline) : PTimeline :=
  { p with
      event_buffer := p.event_buffer.map (fun _ => [])
      buffer_min_ts := ⊤ }

/-- The worker state after the exchange and absorb steps of one iteration:
buffers cleared, then every received event absorbed through `schedule`. -/
def absorbedState (p : PTimeline) (inbox : List Payload) : PTimeline :=
  absorbEvents (clearBuffers p) ((inbox.map Prod.fst).flatten)

/-- The execution window of one iteration (line 123):
`sync_time = min(min_time + lookahead, stop_time)`. -/
def syncWindow (p : PTimeline) (inbox : List Payload) : TimePS :=
  min (iterMinTime p inbox + (p.lookahead : TimePS)) p.stop_time

/-- The worker state at the start of the execute phase (lines 121-124):
`sync_counter` incremented and `time` set to `min_time`. -/
def syncedState (p : PTimeline) (inbox : List Payload) : PTimeline :=
  { absorbedState p inbox with
      sync_counter := (absorbedState p inbox).sync_counter + 1
      toTimeline := { (absorbedState p inbox).toTimeline with time := iterMinTime p inbox } }

/-- Lines 127-129: store the async sub-timeline's post-run state and schedule
each event it produced through `ParallelTimeline.schedule`. -/
def withAsync (p3 : PTimeline) (atl' : ATimeline) : PTimeline :=
  (atl'.new_events).foldl PTimeline.schedule { p3 with async_tl := atl' }

/-- One iteration of the loop of `ParallelTimeline.run` (lines 97-140), with
the inbox delivered by `alltoall` as a parameter.  Compute `min_time` from the
local minimum and the piggy-backed minima; clear the outbound buffers and
reset `buffer_min_ts`; absorb the received events; assert
`min_time >= time` (failure gives `none`); break if `min_time >= stop_time`;
otherwise increment `sync_counter`, set `sync_time = min(min_time + lookahead,
stop_time)` and `time = min_time`, run the async sub-timeline up to
`sync_time` and schedule the events it produced, run the execute phase, and
count the quantum-manager flush. -/
def pIteration (h hA : Event → List Event) (fuel : Nat) (p : PTimeline)
    (inbox : List Payload) : Option PIterResult :=
  if (absorbedState p inbox).time ≤ iterMinTime p inbox then
    if (absorbedState p inbox).stop_time ≤ iterMinTime p inbox then
      some (PIterResult.breakLoop (absorbedState p inbox) (iterMinTime p inbox))
    else
      match (syncedState p inbox).async_tl.run hA fuel (syncWindow p inbox) with
      | none => none
      | some atl' =>
        match execPhase h fuel (withAsync (syncedState p inbox) atl') (syncWindow p inbox) with
        | none => none
        | some (p5, tr) =>
          some (PIterResult.continued
            { p5 with flush_count := p5.flush_count + 1 }
            (iterMinTime p inbox) (syncWindow p inbox) tr)
  else none

/-- The loop of `ParallelTimeline.run` (line 97): while `time < stop_time`,
run one iteration with the next inbox; stop on break.  Returns the final
state. -/
def pRun (h hA : Event → List Event) : Nat → PTimeline → List (List Payload) → Option PTimeline
  | 0, _, _ => none
  | fuel + 1, p, inboxes =>
    if p.time < p.stop_time then
      match inboxes with
      | [] => none
      | ib :: rest =>
        match pIteration h hA fuel p ib with
        | none => none
        | some r =>
          match r with
          | PIterResult.breakLoop q _ => some q
          | PIterResult.continued q _ _ _ => pRun h hA fuel q rest
    else some p

/-- What `alltoall` delivers to worker `i` when the workers' states are `ws`:
from each worker `w`, the outbound buffer `w.event_buffer[i]` with `w`'s local
minimum appended. -/
def worldPayloads (ws : List PTimeline) (i : Nat) : List Payload :=
  ws.map (fun w => (w.event_buffer.getD i [], w.localMin))

/-- Modelled from the spec: the reduce phase as the spec words it — a separate
`allreduce` with MIN of each worker's local minimum pending-event time. -/
def specAllreduceMin (ws : List PTimeline) : TimePS :=
  List.foldl min ⊤ (ws.map PTimeline.localMin)

/-- Python `ParallelTimeline` inherits `remove_event` from `Timeline`. -/
def PTimeline.remove_event (p : PTimeline) (e : Event) : PTimeline :=
  { p with toTimeline := p.toTimeline.remove_event e }

/-- Concrete process used to build sample events. -/
def sampleProcess (ow : Owner) : Process :=
  { owner := ow, activation := "run", act_params := [] }

/-- Concrete event with the given time, insertion sequence number and owner. -/
def sampleEvent (t sq : Nat) (ow : Owner) : Event :=
  { time := t, priority := 0, seq := sq, process := sampleProcess ow, valid := true }

/-- Concrete fresh sequential timeline with stop time 1000 ps. -/
def baseTimeline : Timeline :=
  { events := [], time := ((0 : Nat) : TimePS), stop_time := ((1000 : Nat) : TimePS)
    schedule_counter := 0, run_counter := 0 }

/-- Concrete fresh async sub-timeline with lookahead 500 ps. -/
def baseATimeline : ATimeline :=
  { toTimeline := { baseTimeline with stop_time := ⊤ }
    lookahead := 500, entities := [], new_events := [], exchange_counter := 0 }

/-- Concrete fresh parallel timeline of a two-worker world: entity b lives on
rank 1, lookahead 500 ps, stop time 1000 ps. -/
def basePTimeline : PTimeline :=
  { toTimeline := baseTimeline
    id := 0, foreign_entities := [("b", 1)], event_buffer := [[], []]
    lookahead := 500, async_tl := baseATimeline, async_entities := []
    buffer_min_ts := ⊤, sync_counter := 0, exchange_counter := 0, flush_count := 0 }

/-- Concrete parallel timeline whose only special entity is the async-moved
entity c: no foreign entities. -/
def asyncState : PTimeline :=
  { basePTimeline with
      foreign_entities := []
      async_tl := { baseATimeline with entities := ["c"] } }

/-- Concrete event at 700 ps addressed by name to the async-moved entity c. -/
def strCEvent : Event := sampleEvent 700 9 (Owner.str "c")

/-- Concrete worker 0 of a two-worker world: one local event at 100 ps. -/
def worker0 : PTimeline :=
  { basePTimeline with
      toTimeline := { baseTimeline with events := [sampleEvent 100 5 (Owner.entity "a")] } }

/-- Concrete worker 1 of a two-worker world: one local event at 300 ps and one
buffered outbound event at 700 ps for rank 0. -/
def worker1 : PTimeline :=
  { basePTimeline with
      toTimeline := { baseTimeline with events := [sampleEvent 300 6 (Owner.entity "d")] }
      id := 1
      event_buffer := [[sampleEvent 700 7 (Owner.str "x")], []]
      buffer_min_ts := ((700 : Nat) : TimePS) }

/-- Concrete sequential timeline with a single event at 5 ps, stop 30 ps. -/
def seq1Timeline : Timeline :=
  { baseTimeline with
      events := [sampleEvent 5 1 (Owner.entity "a")]
      stop_time := ((30 : Nat) : TimePS) }

/-- Concrete sequential timeline with one event exactly at its stop time. -/
def boundaryTimeline : Timeline :=
  { baseTimeline with events := [sampleEvent 1000 2 (Owner.entity "a")] }

/-- Concrete sequential timeline with events at 10 and 5 ps, stop 30 ps. -/
def removeTimeline : Timeline :=
  { baseTimeline with
      events := [sampleEvent 10 0 (Owner.entity "a"), sampleEvent 5 1 (Owner.entity "a")]
      stop_time := ((30 : Nat) : TimePS) }

/-- Inbox of a two-worker exchange in which both workers sent nothing and
piggy-backed an infinite minimum. -/
def emptyInbox : List Payload := [([], ⊤), ([], ⊤)]

/-- The state of worker 0 after one continued iteration on `emptyInbox`: its
event at 100 ps executed, clock at 100 ps, one sync and one flush counted. -/
def w0Final : PTimeline :=
  { toTimeline :=
      { events := [], time := ((100 : Nat) : TimePS), stop_time := ((1000 : Nat) : TimePS)
        schedule_counter := 0, run_counter := 1 }
    id := 0, foreign_entities := [("b", 1)], event_buffer := [[], []]
    lookahead := 500, async_tl := baseATimeline, async_entities := []
    buffer_min_ts := ⊤, sync_counter := 1, exchange_counter := 0, flush_count := 1 }

/-- The state of `boundaryTimeline` after its run stops at the boundary: the
event re-scheduled, nothing executed, one extra schedule count. -/
def bFinal : Timeline :=
  { events := [sampleEvent 1000 2 (Owner.entity "a")], time := ((0 : Nat) : TimePS)
    stop_time := ((1000 : Nat) : TimePS), schedule_counter := 1, run_counter := 0 }

theorem keyLe_refl (a : Nat × Nat × Nat) : keyLe a a = true := by
  simp [keyLe]

theorem keyLe_total {a b : Nat × Nat × Nat} (h : keyLe a b = false) : keyLe b a = true := by
  obtain ⟨a1, a2, a3⟩ := a
  obtain ⟨b1, b2, b3⟩ := b
  simp only [keyLe, decide_eq_false_iff_not, decide_eq_true_eq] at h ⊢
  omega

theorem keyLe_trans {a b c : Nat × Nat × Nat} (h1 : keyLe a b = true)
    (h2 : keyLe b c = true) : keyLe a c = true := by
  obtain ⟨a1, a2, a3⟩ := a
  obtain ⟨b1, b2, b3⟩ := b
  obtain ⟨c1, c2, c3⟩ := c
  simp only [keyLe, decide_eq_true_eq] at h1 h2 ⊢
  omega

theorem keyLe_time {e x : Event} (h : keyLe (evKey e) (evKey x) = true) :
    e.time ≤ x.time := by
  simp only [keyLe, evKey, decide_eq_true_eq] at h
  omega

theorem pickMin_eq_none {l : List Event} : pickMin l = none ↔ l = [] := by
  cases l with
  | nil => simp [pickMin]
  | cons e es =>
    simp only [pickMin]
    cases h : pickMin es with
    | none => simp
    | some p => cases p with | mk m rest => by_cases hk : keyLe (evKey e) (evKey m) <;> simp [hk]

theorem pickMin_cover : ∀ {l : List Event} {e : Event} {rest : List Event},
    pickMin l = some (e, rest) → ∀ x ∈ l, x = e ∨ x ∈ rest
  | [], _, _, h => by simp [pickMin] at h
  | y :: ys, e, rest, h => by
    simp only [pickMin] at h
    cases h' : pickMin ys with
    | none =>
      rw [h'] at h
      have hys : ys = [] := pickMin_eq_none.mp h'
      simp only [Option.some.injEq, Prod.mk.injEq] at h
      subst hys
      intro x hx
      simp only [List.mem_singleton] at hx
      left; rw [hx, ← h.1]
    | some p =>
      cases p with
      | mk m rest' =>
        rw [h'] at h
        by_cases hk : keyLe (evKey e) (evKey m)
        all_goals intro x hx
        all_goals rcases List.mem_cons.mp hx with hxy | hxys
        · -- we do not know e = y yet; analyze h by the if
          by_cases hk2 : keyLe (evKey y) (evKey m) <;> simp [hk2] at h
          · left; rw [hxy, ← h.1]
          · right; rw [← h.2, hxy]; exact List.mem_cons_self _ _
        · by_cases hk2 : keyLe (evKey y) (evKey m) <;> simp [hk2] at h
          · right; rw [← h.2]; exact hxys
          · rcases pickMin_cover h' x hxys with hxm | hxr
            · left; rw [hxm, ← h.1]
            · right; rw [← h.2]; exact List.mem_cons_of_mem _ hxr
        · by_cases hk2 : keyLe (evKey y) (evKey m) <;> simp [hk2] at h
          · left; rw [hxy, ← h.1]
          · right; rw [← h.2, hxy]; exact List.mem_cons_self _ _
        · by_cases hk2 : keyLe (evKey y) (evKey m) <;> simp [hk2] at h
          · right; rw [← h.2]; exact hxys
          · rcases pickMin_cover h' x hxys with hxm | hxr
            · left; rw [hxm, ← h.1]
            · right; rw [← h.2]; exact List.mem_cons_of_mem _ hxr

theorem pickMin_min : ∀ {l : List Event} {e : Event} {rest : List Event},
    pickMin l = some (e, rest) → ∀ x ∈ l, keyLe (evKey e) (evKey x) = true
  | [], _, _, h => by simp [pickMin] at h
  | y :: ys, e, rest, h => by
    simp only [pickMin] at h
    cases h' : pickMin ys with
    | none =>
      rw [h'] at h
      have hys : ys = [] := pickMin_eq_none.mp h'
      simp only [Option.some.injEq, Prod.mk.injEq] at h
      subst hys
      intro x hx
      simp only [List.mem_singleton] at hx
      rw [hx, ← h.1]; exact keyLe_refl _
    | some p =>
      cases p with
      | mk m rest' =>
        rw [h'] at h
        by_cases hk2 : keyLe (evKey y) (evKey m) <;> simp [hk2] at h
        · intro x hx
          rcases List.mem_cons.mp hx with hxy | hxys
          · rw [hxy, ← h.1]; exact keyLe_refl _
          · rw [← h.1]; exact keyLe_trans hk2 (pickMin_min h' x hxys)
        · intro x hx
          rcases List.mem_cons.mp hx with hxy | hxys
          · rw [hxy, ← h.1]
            exact keyLe_total (by simpa using hk2)
          · rw [← h.1]; exact pickMin_min h' x hxys

theorem pickMin_mem {l : List Event} {e : Event} {rest : List Event}
    (h : pickMin l = some (e, rest)) : e ∈ l := by
  cases l with
  | nil => simp [pickMin] at h
  | cons y ys =>
    simp only [pickMin] at h
    cases h' : pickMin ys with
    | none => rw [h'] at h; simp only [Option.some.injEq, Prod.mk.injEq] at h; rw [← h.1]; exact List.mem_cons_self _ _
    | some p =>
      cases p with
      | mk m rest' =>
        rw [h'] at h
        by_cases hk2 : keyLe (evKey y) (evKey m) <;> simp [hk2] at h
        · rw [← h.1]; exact List.mem_cons_self _ _
        · rw [← h.1]; exact List.mem_cons_of_mem _ (pickMin_mem h')

theorem pickMin_rest_subset : ∀ {l : List Event} {e : Event} {rest : List Event},
    pickMin l = some (e, rest) → ∀ x ∈ rest, x ∈ l
  | [], _, _, h => by simp [pickMin] at h
  | y :: ys, e, rest, h => by
    simp only [pickMin] at h
    cases h' : pickMin ys with
    | none =>
      rw [h'] at h
      simp only [Option.some.injEq, Prod.mk.injEq] at h
      rw [← h.2]
      intro x hx; simp at hx
    | some p =>
      cases p with
      | mk m rest' =>
        rw [h'] at h
        by_cases hk2 : keyLe (evKey y) (evKey m) <;> simp [hk2] at h
        · rw [← h.2]
          intro x hx; exact List.mem_cons_of_mem _ hx
        · rw [← h.2]
          intro x hx
          rcases List.mem_cons.mp hx with hxy | hxr
          · rw [hxy]; exact List.mem_cons_self _ _
          · exact List.mem_cons_of_mem _ (pickMin_rest_subset h' x hxr)

theorem Timeline.schedule_mem {tl : Timeline} {e x : Event} (hx : x ∈ tl.events) :
    x ∈ (tl.schedule e).events := by
  simp only [Timeline.schedule]
  exact List.mem_append_left _ hx

theorem Timeline.schedule_mem_or {tl : Timeline} {e x : Event}
    (hx : x ∈ (tl.schedule e).events) : x ∈ tl.events ∨ x = e := by
  simp only [Timeline.schedule] at hx
  rcases List.mem_append.mp hx with h | h
  · exact Or.inl h
  · exact Or.inr (List.mem_singleton.mp h)

theorem Timeline.scheduleAll_fields (tl : Timeline) (es : List Event) :
    (tl.scheduleAll es).time = tl.time ∧ (tl.scheduleAll es).stop_time = tl.stop_time ∧
    (tl.scheduleAll es).run_counter = tl.run_counter ∧
    tl.schedule_counter ≤ (tl.scheduleAll es).schedule_counter := by
  induction es generalizing tl with
  | nil => simp [Timeline.scheduleAll]
  | cons e es ih =>
    have h := ih (tl.schedule e)
    simp only [Timeline.scheduleAll, List.foldl_cons] at h ⊢
    simp only [Timeline.schedule] at h
    exact ⟨h.1, h.2.1, h.2.2.1, Nat.le_trans (Nat.le_succ _) h.2.2.2⟩

theorem Timeline.scheduleAll_mem {tl : Timeline} {es : List Event} {x : Event}
    (hx : x ∈ tl.events) : x ∈ (tl.scheduleAll es).events := by
  induction es generalizing tl with
  | nil => simpa [Timeline.scheduleAll] using hx
  | cons e es ih =>
    simp only [Timeline.scheduleAll, List.foldl_cons] at ih ⊢
    exact ih (Timeline.schedule_mem hx)

theorem Timeline.scheduleAll_mem_or {tl : Timeline} {es : List Event} {x : Event}
    (hx : x ∈ (tl.scheduleAll es).events) : x ∈ tl.events ∨ x ∈ es := by
  induction es generalizing tl with
  | nil => simp only [Timeline.scheduleAll, List.foldl_nil] at hx; exact Or.inl hx
  | cons e es ih =>
    simp only [Timeline.scheduleAll, List.foldl_cons] at hx
    rcases ih hx with h | h
    · rcases Timeline.schedule_mem_or h with h' | h'
      · exact Or.inl h'
      · exact Or.inr (by rw [h']; exact List.mem_cons_self _ _)
    · exact Or.inr (List.mem_cons_of_mem _ h)

theorem Timeline.scheduleAll_nil_counter (tl : Timeline) :
    (tl.scheduleAll []).schedule_counter = tl.schedule_counter := rfl

theorem PTimeline.schedule_fields (p : PTimeline) (e : Event) :
    (p.schedule e).time = p.time ∧ (p.schedule e).stop_time = p.stop_time ∧
    (p.schedule e).run_counter = p.run_counter ∧
    (p.schedule e).sync_counter = p.sync_counter ∧
    (p.schedule e).flush_count = p.flush_count ∧
    (p.schedule e).lookahead = p.lookahead := by
  unfold PTimeline.schedule
  cases e.process.owner with
  | entity n => simp [Timeline.schedule]
  | str n =>
    cases hl : List.lookup n p.foreign_entities with
    | some tid => simp [hl]
    | none =>
      by_cases hm : n ∈ p.async_tl.entities <;> simp [hl, hm, Timeline.schedule]

theorem pschedule_mem {p : PTimeline} {e x : Event} (hx : x ∈ p.events) :
    x ∈ (PTimeline.schedule p e).events := by
  unfold PTimeline.schedule
  cases e.process.owner with
  | entity n => simpa [Timeline.schedule] using Or.inl hx
  | str n =>
    cases hl : List.lookup n p.foreign_entities with
    | some tid => simpa [hl] using hx
    | none =>
      by_cases hm : n ∈ p.async_tl.entities <;> simp [hl, hm, Timeline.schedule]
      · exact hx
      · exact Or.inl hx

theorem pschedule_mem_or {p : PTimeline} {e x : Event}
    (hx : x ∈ (PTimeline.schedule p e).events) : x ∈ p.events ∨ x = e := by
  unfold PTimeline.schedule at hx
  cases ho : e.process.owner with
  | entity n =>
    rw [ho] at hx
    simp only [Timeline.schedule] at hx
    rcases List.mem_append.mp hx with h | h
    · exact Or.inl h
    · exact Or.inr (List.mem_singleton.mp h)
  | str n =>
    rw [ho] at hx
    cases hl : List.lookup n p.foreign_entities with
    | some tid => simp only [hl] at hx; exact Or.inl hx
    | none =>
      simp only [hl] at hx
      by_cases hm : n ∈ p.async_tl.entities <;> simp [hm, Timeline.schedule] at hx
      · exact Or.inl hx
      · rcases hx with h | h
        · exact Or.inl h
        · exact Or.inr h

theorem foldl_pschedule_fields (p : PTimeline) (es : List Event) :
    (es.foldl PTimeline.schedule p).time = p.time ∧
    (es.foldl PTimeline.schedule p).stop_time = p.stop_time ∧
    (es.foldl PTimeline.schedule p).run_counter = p.run_counter ∧
    (es.foldl PTimeline.schedule p).sync_counter = p.sync_counter ∧
    (es.foldl PTimeline.schedule p).flush_count = p.flush_count ∧
    (es.foldl PTimeline.schedule p).lookahead = p.lookahead := by
  induction es generalizing p with
  | nil => simp
  | cons e es ih =>
    have h1 := PTimeline.schedule_fields p e
    have h2 := ih (PTimeline.schedule p e)
    simp only [List.foldl_cons] at *
    exact ⟨h2.1.trans h1.1, h2.2.1.trans h1.2.1, h2.2.2.1.trans h1.2.2.1,
      h2.2.2.2.1.trans h1.2.2.2.1, h2.2.2.2.2.1.trans h1.2.2.2.2.1,
      h2.2.2.2.2.2.trans h1.2.2.2.2.2⟩

theorem foldl_pschedule_mem {p : PTimeline} {es : List Event} {x : Event}
    (hx : x ∈ p.events) : x ∈ (es.foldl PTimeline.schedule p).events := by
  induction es generalizing p with
  | nil => simpa using hx
  | cons e es ih =>
    simp only [List.foldl_cons]
    exact ih (pschedule_mem hx)

theorem foldl_pschedule_mem_or {p : PTimeline} {es : List Event} {x : Event}
    (hx : x ∈ (es.foldl PTimeline.schedule p).events) : x ∈ p.events ∨ x ∈ es := by
  induction es generalizing p with
  | nil => simp only [List.foldl_nil] at hx; exact Or.inl hx
  | cons e es ih =>
    simp only [List.foldl_cons] at hx
    rcases ih hx with h | h
    · rcases pschedule_mem_or h with h' | h'
      · exact Or.inl h'
      · exact Or.inr (by rw [h']; exact List.mem_cons_self _ _)
    · exact Or.inr (List.mem_cons_of_mem _ h)

theorem absorbEvents_fields (p : PTimeline) (evs : List Event) :
    (absorbEvents p evs).time = p.time ∧
    (absorbEvents p evs).stop_time = p.stop_time ∧
    (absorbEvents p evs).run_counter = p.run_counter ∧
    (absorbEvents p evs).sync_counter = p.sync_counter ∧
    (absorbEvents p evs).flush_count = p.flush_count ∧
    (absorbEvents p evs).lookahead = p.lookahead := by
  induction evs generalizing p with
  | nil => simp [absorbEvents]
  | cons e es ih =>
    have h1 := PTimeline.schedule_fields { p with exchange_counter := p.exchange_counter + 1 } e
    have h2 := ih (PTimeline.schedule { p with exchange_counter := p.exchange_counter + 1 } e)
    simp only [absorbEvents, List.foldl_cons] at *
    exact ⟨h2.1.trans h1.1, h2.2.1.trans h1.2.1, h2.2.2.1.trans h1.2.2.1,
      h2.2.2.2.1.trans h1.2.2.2.1, h2.2.2.2.2.1.trans h1.2.2.2.2.1,
      h2.2.2.2.2.2.trans h1.2.2.2.2.2⟩

theorem absorbEvents_mem {p : PTimeline} {evs : List Event} {x : Event}
    (hx : x ∈ p.events) : x ∈ (absorbEvents p evs).events := by
  induction evs generalizing p with
  | nil => simpa [absorbEvents] using hx
  | cons e es ih =>
    simp only [absorbEvents, List.foldl_cons] at ih ⊢
    exact ih (pschedule_mem hx)

theorem execPhase_inv {h : Event → List Event} {fuel : Nat} {p : PTimeline} {st : TimePS}
    {q : PTimeline} {tr : List Event} (H : execPhase h fuel p st = some (q, tr)) :
    p.time ≤ q.time ∧
    (∀ x ∈ tr, x.valid = true ∧ (x.time : TimePS) < st ∧ p.time ≤ (x.time : TimePS)) ∧
    q.time = tr.foldl (fun _ x => (x.time : TimePS)) p.time ∧
    (∀ x ∈ p.events, x.valid = true → (x.time : TimePS) < st → x ∈ tr) ∧
    q.sync_counter = p.sync_counter ∧ q.flush_count = p.flush_count ∧
    q.stop_time = p.stop_time := by
  induction fuel generalizing p q tr with
  | zero => simp [execPhase] at H
  | succ fuel ih =>
    rw [execPhase] at H
    cases hp : pickMin p.events with
    | none =>
      simp only [hp] at H
      simp only [Option.some.injEq, Prod.mk.injEq] at H
      obtain ⟨rfl, rfl⟩ := H
      refine ⟨le_refl _, by simp, by simp, ?_, rfl, rfl, rfl⟩
      intro x hx
      rw [pickMin_eq_none.mp hp] at hx
      simp at hx
    | some pr =>
      obtain ⟨e, rest⟩ := pr
      simp only [hp] at H
      by_cases h1 : (e.time : TimePS) < st
      · rw [if_pos h1] at H
        by_cases h2 : e.is_invalid
        · rw [if_pos h2] at H
          have hvalid : e.valid = false := by
            simpa [Event.is_invalid] using h2
          have IH := ih H
          refine ⟨IH.1, IH.2.1, IH.2.2.1, ?_, IH.2.2.2.2.1, IH.2.2.2.2.2.1, IH.2.2.2.2.2.2⟩
          intro x hx hxv hxt
          rcases pickMin_cover hp x hx with rfl | hxr
          · rw [hvalid] at hxv; cases hxv
          · exact IH.2.2.2.1 x hxr hxv hxt
        · rw [if_neg h2] at H
          have hvalid : e.valid = true := by
            simpa [Event.is_invalid] using h2
          by_cases h3 : p.time ≤ (e.time : TimePS)
          · rw [if_pos h3] at H
            rw [Option.map_eq_some'] at H
            obtain ⟨⟨q', tr'⟩, Hrec, Heq⟩ := H
            simp only [Prod.mk.injEq] at Heq
            obtain ⟨rfl, rfl⟩ := Heq
            have hf := foldl_pschedule_fields
              { p with toTimeline :=
                  { p.toTimeline with
                      events := rest
                      time := (e.time : TimePS)
                      run_counter := p.run_counter + 1 } } (h e)
            have IH := ih Hrec
            have htime : ((h e).foldl PTimeline.schedule
                { p with toTimeline :=
                    { p.toTimeline with
                        events := rest
                        time := (e.time : TimePS)
                        run_counter := p.run_counter + 1 } }).time = (e.time : TimePS) := hf.1
            constructor
            · exact le_trans h3 (htime ▸ IH.1)
            constructor
            · intro x hx
              rcases List.mem_cons.mp hx with rfl | hxr
              · exact ⟨hvalid, h1, h3⟩
              · have := IH.2.1 x hxr
                exact ⟨this.1, this.2.1, le_trans h3 (htime ▸ this.2.2)⟩
            constructor
            · simp only [List.foldl_cons]
              rw [IH.2.2.1, htime]
            constructor
            · intro x hx hxv hxt
              rcases pickMin_cover hp x hx with rfl | hxr
              · exact List.mem_cons_self _ _
              · refine List.mem_cons_of_mem _ (IH.2.2.2.1 x ?_ hxv hxt)
                exact foldl_pschedule_mem hxr
            · exact ⟨IH.2.2.2.2.1.trans hf.2.2.2.1, IH.2.2.2.2.2.1.trans hf.2.2.2.2.1,
                IH.2.2.2.2.2.2.trans hf.2.1⟩
          · rw [if_neg h3] at H
            cases H
      · rw [if_neg h1] at H
        simp only [Option.some.injEq, Prod.mk.injEq] at H
        obtain ⟨rfl, rfl⟩ := H
        refine ⟨le_refl _, by simp, by simp, ?_, rfl, rfl, rfl⟩
        intro x hx hxv hxt
        exfalso
        have hle : e.time ≤ x.time := keyLe_time (pickMin_min hp x hx)
        have : (e.time : TimePS) ≤ (x.time : TimePS) := by exact_mod_cast hle
        exact h1 (lt_of_le_of_lt this hxt)

theorem runLoop_inv {h : Event → List Event} {fuel : Nat} {tl : Timeline}
    {q : Timeline} {tr : List Event} {b : Bool} (H : runLoop h fuel tl = some (q, tr, b)) :
    tl.time ≤ q.time ∧
    (∀ x ∈ tr, x.valid = true ∧ (x.time : TimePS) < tl.stop_time ∧ tl.time ≤ (x.time : TimePS)) ∧
    q.time = tr.foldl (fun _ x => (x.time : TimePS)) tl.time ∧
    q.stop_time = tl.stop_time ∧
    q.run_counter = tl.run_counter + tr.length ∧
    tl.schedule_counter + (if b then 1 else 0) ≤ q.schedule_counter := by
  induction fuel generalizing tl q tr b with
  | zero => simp [runLoop] at H
  | succ fuel ih =>
    rw [runLoop] at H
    cases hp : pickMin tl.events with
    | none =>
      simp only [hp] at H
      simp only [Option.some.injEq, Prod.mk.injEq] at H
      obtain ⟨rfl, rfl, rfl⟩ := H
      exact ⟨le_refl _, by simp, by simp, rfl, rfl, by simp⟩
    | some pr =>
      obtain ⟨e, rest⟩ := pr
      simp only [hp] at H
      by_cases h1 : tl.stop_time ≤ (e.time : TimePS)
      · rw [if_pos h1] at H
        simp only [Option.some.injEq, Prod.mk.injEq] at H
        obtain ⟨rfl, rfl, rfl⟩ := H
        refine ⟨by simp [Timeline.schedule], by simp, ?_, by simp [Timeline.schedule],
          by simp [Timeline.schedule], by simp [Timeline.schedule]⟩
        simp [Timeline.schedule]
      · rw [if_neg h1] at H
        by_cases h3 : tl.time ≤ (e.time : TimePS)
        · rw [if_pos h3] at H
          by_cases h2 : e.is_invalid
          · rw [if_pos h2] at H
            have IH := ih H
            exact ⟨IH.1, IH.2.1, IH.2.2.1, IH.2.2.2.1, IH.2.2.2.2.1, IH.2.2.2.2.2⟩
          · rw [if_neg h2] at H
            have hvalid : e.valid = true := by
              simpa [Event.is_invalid] using h2
            rw [Option.map_eq_some'] at H
            obtain ⟨⟨q', tr', b'⟩, Hrec, Heq⟩ := H
            simp only [Prod.mk.injEq] at Heq
            obtain ⟨rfl, rfl, rfl⟩ := Heq
            have hf := Timeline.scheduleAll_fields
              { tl with
                  events := rest
                  time := (e.time : TimePS)
                  run_counter := tl.run_counter + 1 } (h e)
            have IH := ih Hrec
            have htime : (Timeline.scheduleAll
                { tl with
                    events := rest
                    time := (e.time : TimePS)
                    run_counter := tl.run_counter + 1 } (h e)).time = (e.time : TimePS) := hf.1
            have hstop : (Timeline.scheduleAll
                { tl with
                    events := rest
                    time := (e.time : TimePS)
                    run_counter := tl.run_counter + 1 } (h e)).stop_time = tl.stop_time := hf.2.1
            have het : (e.time : TimePS) < tl.stop_time := lt_of_not_le h1
            constructor
            · exact le_trans h3 (htime ▸ IH.1)
            constructor
            · intro x hx
              rcases List.mem_cons.mp hx with rfl | hxr
              · exact ⟨hvalid, het, h3⟩
              · have := IH.2.1 x hxr
                rw [hstop] at this
                exact ⟨this.1, this.2.1, le_trans h3 (htime ▸ this.2.2)⟩
            constructor
            · simp only [List.foldl_cons]
              rw [IH.2.2.1, htime]
            constructor
            · exact IH.2.2.2.1.trans hstop
            constructor
            · rw [IH.2.2.2.2.1, hf.2.2.1]
              simp [Nat.add_comm, Nat.add_assoc, Nat.add_left_comm]
            · have h5 := hf.2.2.2
              have h6 := IH.2.2.2.2.2
              simp only at h5
              omega
        · rw [if_neg h3] at H
          cases H

theorem runLoop_counter_noNew {fuel : Nat} {tl : Timeline} {q : Timeline}
    {tr : List Event} {b : Bool} (H : runLoop (fun _ => []) fuel tl = some (q, tr, b)) :
    q.schedule_counter = tl.schedule_counter + (if b then 1 else 0) := by
  induction fuel generalizing tl q tr b with
  | zero => simp [runLoop] at H
  | succ fuel ih =>
    rw [runLoop] at H
    cases hp : pickMin tl.events with
    | none =>
      simp only [hp] at H
      simp only [Option.some.injEq, Prod.mk.injEq] at H
      obtain ⟨rfl, rfl, rfl⟩ := H
      simp
    | some pr =>
      obtain ⟨e, rest⟩ := pr
      simp only [hp] at H
      by_cases h1 : tl.stop_time ≤ (e.time : TimePS)
      · rw [if_pos h1] at H
        simp only [Option.some.injEq, Prod.mk.injEq] at H
        obtain ⟨rfl, rfl, rfl⟩ := H
        simp [Timeline.schedule]
      · rw [if_neg h1] at H
        by_cases h3 : tl.time ≤ (e.time : TimePS)
        · rw [if_pos h3] at H
          by_cases h2 : e.is_invalid
          · rw [if_pos h2] at H
            have := ih H
            simpa using this
          · rw [if_neg h2] at H
            rw [Option.map_eq_some'] at H
            obtain ⟨⟨q', tr', b'⟩, Hrec, Heq⟩ := H
            simp only [Prod.mk.injEq] at Heq
            obtain ⟨rfl, rfl, rfl⟩ := Heq
            have := ih Hrec
            simpa [Timeline.scheduleAll] using this
        · rw [if_neg h3] at H
          cases H

theorem runLoop_no_invalid_seq {h : Event → List Event} {fuel : Nat} {tl : Timeline}
    {q : Timeline} {tr : List Event} {b : Bool} {s : Nat}
    (Hinv : ∀ x ∈ tl.events, x.seq = s → x.valid = false)
    (Hh : ∀ ev x, x ∈ h ev → x.seq ≠ s)
    (H : runLoop h fuel tl = some (q, tr, b)) :
    ∀ x ∈ tr, x.seq ≠ s := by
  induction fuel generalizing tl q tr b with
  | zero => simp [runLoop] at H
  | succ fuel ih =>
    rw [runLoop] at H
    cases hp : pickMin tl.events with
    | none =>
      simp only [hp] at H
      simp only [Option.some.injEq, Prod.mk.injEq] at H
      obtain ⟨rfl, rfl, rfl⟩ := H
      simp
    | some pr =>
      obtain ⟨e, rest⟩ := pr
      simp only [hp] at H
      by_cases h1 : tl.stop_time ≤ (e.time : TimePS)
      · rw [if_pos h1] at H
        simp only [Option.some.injEq, Prod.mk.injEq] at H
        obtain ⟨rfl, rfl, rfl⟩ := H
        simp
      · rw [if_neg h1] at H
        by_cases h3 : tl.time ≤ (e.time : TimePS)
        · rw [if_pos h3] at H
          by_cases h2 : e.is_invalid
          · rw [if_pos h2] at H
            refine ih ?_ H
            intro x hx hs
            exact Hinv x (pickMin_rest_subset hp x hx) hs
          · rw [if_neg h2] at H
            have hvalid : e.valid = true := by
              simpa [Event.is_invalid] using h2
            rw [Option.map_eq_some'] at H
            obtain ⟨⟨q', tr', b'⟩, Hrec, Heq⟩ := H
            simp only [Prod.mk.injEq] at Heq
            obtain ⟨rfl, rfl, rfl⟩ := Heq
            intro x hx
            rcases List.mem_cons.mp hx with rfl | hxr
            · intro hs
              have := Hinv x (pickMin_mem hp) hs
              rw [hvalid] at this; cases this
            · refine ih ?_ Hrec x hxr
              intro y hy hs
              rcases Timeline.scheduleAll_mem_or hy with hyr | hyh
              · exact Hinv y (pickMin_rest_subset hp y hyr) hs
              · exact absurd hs (Hh e y hyh)
        · rw [if_neg h3] at H
          cases H

theorem execPhase_no_invalid_seq {h : Event → List Event} {fuel : Nat} {p : PTimeline}
    {st : TimePS} {q : PTimeline} {tr : List Event} {s : Nat}
    (Hinv : ∀ x ∈ p.events, x.seq = s → x.valid = false)
    (Hh : ∀ ev x, x ∈ h ev → x.seq ≠ s)
    (H : execPhase h fuel p st = some (q, tr)) :
    ∀ x ∈ tr, x.seq ≠ s := by
  induction fuel generalizing p q tr with
  | zero => simp [execPhase] at H
  | succ fuel ih =>
    rw [execPhase] at H
    cases hp : pickMin p.events with
    | none =>
      simp only [hp] at H
      simp only [Option.some.injEq, Prod.mk.injEq] at H
      obtain ⟨rfl, rfl⟩ := H
      simp
    | some pr =>
      obtain ⟨e, rest⟩ := pr
      simp only [hp] at H
      by_cases h1 : (e.time : TimePS) < st
      · rw [if_pos h1] at H
        by_cases h2 : e.is_invalid
        · rw [if_pos h2] at H
          refine ih ?_ H
          intro x hx hs
          exact Hinv x (pickMin_rest_subset hp x hx) hs
        · rw [if_neg h2] at H
          have hvalid : e.valid = true := by
            simpa [Event.is_invalid] using h2
          by_cases h3 : p.time ≤ (e.time : TimePS)
          · rw [if_pos h3] at H
            rw [Option.map_eq_some'] at H
            obtain ⟨⟨q', tr'⟩, Hrec, Heq⟩ := H
            simp only [Prod.mk.injEq] at Heq
            obtain ⟨rfl, rfl⟩ := Heq
            intro x hx
            rcases List.mem_cons.mp hx with rfl | hxr
            · intro hs
              have := Hinv x (pickMin_mem hp) hs
              rw [hvalid] at this; cases this
            · refine ih ?_ Hrec x hxr
              intro y hy hs
              rcases foldl_pschedule_mem_or hy with hyr | hyh
              · exact Hinv y (pickMin_rest_subset hp y hyr) hs
              · exact absurd hs (Hh e y hyh)
          · rw [if_neg h3] at H
            cases H
      · rw [if_neg h1] at H
        simp only [Option.some.injEq, Prod.mk.injEq] at H
        obtain ⟨rfl, rfl⟩ := H
        simp

theorem remove_event_invalidates (tl : Timeline) (e : Event) :
    ∀ x ∈ (tl.remove_event e).events, x.seq = e.seq → x.valid = false := by
  intro x hx hs
  simp only [Timeline.remove_event, removeFromList, List.mem_map] at hx
  obtain ⟨y, _, hy⟩ := hx
  by_cases h : y.seq = e.seq
  · rw [if_pos h] at hy
    rw [← hy]
  · rw [if_neg h] at hy
    rw [← hy] at hs
    exact absurd hs h

theorem absorbedState_fields (p : PTimeline) (inbox : List Payload) :
    (absorbedState p inbox).time = p.time ∧
    (absorbedState p inbox).stop_time = p.stop_time ∧
    (absorbedState p inbox).run_counter = p.run_counter ∧
    (absorbedState p inbox).sync_counter = p.sync_counter ∧
    (absorbedState p inbox).flush_count = p.flush_count := by
  have h := absorbEvents_fields (clearBuffers p) ((inbox.map Prod.fst).flatten)
  simp only [clearBuffers] at h
  exact ⟨h.1, h.2.1, h.2.2.1, h.2.2.2.1, h.2.2.2.2.1⟩

theorem absorbedState_mem {p : PTimeline} {inbox : List Payload} {x : Event}
    (hx : x ∈ p.events) : x ∈ (absorbedState p inbox).events := by
  exact absorbEvents_mem (by simpa [clearBuffers] using hx)

theorem syncedState_fields (p : PTimeline) (inbox : List Payload) :
    (syncedState p inbox).time = iterMinTime p inbox ∧
    (syncedState p inbox).stop_time = p.stop_time ∧
    (syncedState p inbox).run_counter = p.run_counter ∧
    (syncedState p inbox).sync_counter = p.sync_counter + 1 ∧
    (syncedState p inbox).flush_count = p.flush_count := by
  have h := absorbedState_fields p inbox
  refine ⟨rfl, h.2.1, h.2.2.1, ?_, h.2.2.2.2⟩
  show (absorbedState p inbox).sync_counter + 1 = p.sync_counter + 1
  rw [h.2.2.2.1]

theorem syncedState_mem {p : PTimeline} {inbox : List Payload} {x : Event}
    (hx : x ∈ p.events) : x ∈ (syncedState p inbox).events := by
  simp only [syncedState]
  exact absorbedState_mem hx

theorem withAsync_fields (p3 : PTimeline) (atl' : ATimeline) :
    (withAsync p3 atl').time = p3.time ∧
    (withAsync p3 atl').stop_time = p3.stop_time ∧
    (withAsync p3 atl').run_counter = p3.run_counter ∧
    (withAsync p3 atl').sync_counter = p3.sync_counter ∧
    (withAsync p3 atl').flush_count = p3.flush_count := by
  have h := foldl_pschedule_fields { p3 with async_tl := atl' } atl'.new_events
  simp only [withAsync]
  exact ⟨h.1, h.2.1, h.2.2.1, h.2.2.2.1, h.2.2.2.2.1⟩

theorem withAsync_mem {p3 : PTimeline} {atl' : ATimeline} {x : Event}
    (hx : x ∈ p3.events) : x ∈ (withAsync p3 atl').events := by
  simp only [withAsync]
  exact foldl_pschedule_mem hx

theorem pIteration_elim {h hA : Event → List Event} {fuel : Nat} {p : PTimeline}
    {inbox : List Payload} {r : PIterResult}
    (H : pIteration h hA fuel p inbox = some r) :
    (r = PIterResult.breakLoop (absorbedState p inbox) (iterMinTime p inbox) ∧
       p.stop_time ≤ iterMinTime p inbox ∧ p.time ≤ iterMinTime p inbox) ∨
    (∃ atl' p5 tr,
       r = PIterResult.continued { p5 with flush_count := p5.flush_count + 1 }
         (iterMinTime p inbox) (syncWindow p inbox) tr ∧
       p.time ≤ iterMinTime p inbox ∧ ¬ p.stop_time ≤ iterMinTime p inbox ∧
       (syncedState p inbox).async_tl.run hA fuel (syncWindow p inbox) = some atl' ∧
       execPhase h fuel (withAsync (syncedState p inbox) atl') (syncWindow p inbox)
         = some (p5, tr)) := by
  unfold pIteration at H
  have hfield := absorbedState_fields p inbox
  by_cases h1 : (absorbedState p inbox).time ≤ iterMinTime p inbox
  · rw [if_pos h1] at H
    by_cases h2 : (absorbedState p inbox).stop_time ≤ iterMinTime p inbox
    · rw [if_pos h2] at H
      left
      refine ⟨by injection H with h'; exact h'.symm, ?_, ?_⟩
      · rw [← hfield.2.1]; exact h2
      · rw [← hfield.1]; exact h1
    · rw [if_neg h2] at H
      right
      cases har : (syncedState p inbox).async_tl.run hA fuel (syncWindow p inbox) with
      | none => simp only [har] at H; exact Option.noConfusion H
      | some atl' =>
        simp only [har] at H
        cases hex : execPhase h fuel (withAsync (syncedState p inbox) atl') (syncWindow p inbox) with
        | none => simp only [hex] at H; exact Option.noConfusion H
        | some pr =>
          obtain ⟨p5, tr⟩ := pr
          simp only [hex] at H
          refine ⟨atl', p5, tr, by injection H with h'; exact h'.symm, ?_, ?_, rfl, hex⟩
          · rw [← hfield.1]; exact h1
          · rw [← hfield.2.1]; exact h2
  · rw [if_neg h1] at H
    cases H

theorem foldl_min_top (l : List TimePS) (a : TimePS) :
    List.foldl min a l = min a (List.foldl min ⊤ l) := by
  induction l generalizing a with
  | nil => simp
  | cons b l ih =>
    simp only [List.foldl_cons]
    rw [ih (min a b), ih (min ⊤ b), min_top_left, min_assoc]

theorem foldl_min_le {l : List TimePS} {a : TimePS} (ha : a ∈ l) :
    List.foldl min ⊤ l ≤ a := by
  induction l with
  | nil => simp at ha
  | cons b l ih =>
    simp only [List.foldl_cons]
    rw [foldl_min_top l (min ⊤ b), min_top_left]
    rcases List.mem_cons.mp ha with rfl | hal
    · exact min_le_left _ _
    · exact le_trans (min_le_right _ _) (ih hal)

theorem foldl_min_top_all {l : List TimePS} (h : ∀ x ∈ l, x = ⊤) :
    List.foldl min ⊤ l = ⊤ := by
  induction l with
  | nil => simp
  | cons b l ih =>
    simp only [List.foldl_cons]
    rw [h b (List.mem_cons_self _ _), min_top_right]
    exact ih (fun x hx => h x (List.mem_cons_of_mem _ hx))

theorem localMin_empty {p : PTimeline} (h1 : p.events = []) (h2 : p.async_tl.events = [])
    (h3 : p.buffer_min_ts = ⊤) : p.localMin = ⊤ := by
  simp [PTimeline.localMin, PTimeline.top_time, ATimeline.top_time, h1, h2, h3, pickMin]

theorem iterMinTime_top {p : PTimeline} {inbox : List Payload}
    (h1 : p.events = []) (h2 : p.async_tl.events = []) (h3 : p.buffer_min_ts = ⊤)
    (h4 : ∀ pl ∈ inbox, pl.2 = (⊤ : TimePS)) : iterMinTime p inbox = ⊤ := by
  unfold iterMinTime
  rw [localMin_empty h1 h2 h3, foldl_min_top_all]
  intro x hx
  rcases List.mem_map.mp hx with ⟨pl, hpl, rfl⟩
  exact h4 pl hpl

theorem pIteration_counters {h hA : Event → List Event} {fuel : Nat} {p : PTimeline}
    {inbox : List Payload} {r : PIterResult} (H : pIteration h hA fuel p inbox = some r) :
    (∀ q mt, r = PIterResult.breakLoop q mt →
       q.sync_counter = p.sync_counter ∧ q.flush_count = p.flush_count ∧
       q.run_counter = p.run_counter) ∧
    (∀ q mt st tr, r = PIterResult.continued q mt st tr →
       q.sync_counter = p.sync_counter + 1 ∧ q.flush_count = p.flush_count + 1) := by
  rcases pIteration_elim H with ⟨hr, _, _⟩ | ⟨atl', p5, tr, hr, _, _, _, hex⟩
  · constructor
    · intro q mt hq
      rw [hr] at hq
      injection hq with hq1 hq2
      rw [← hq1]
      have hf := absorbedState_fields p inbox
      exact ⟨hf.2.2.2.1, hf.2.2.2.2, hf.2.2.1⟩
    · intro q mt st tr hq
      rw [hr] at hq
      cases hq
  · constructor
    · intro q mt hq
      rw [hr] at hq
      cases hq
    · intro q mt st tr' hq
      rw [hr] at hq
      injection hq with hq1 hq2
      rw [← hq1]
      have hf5 := execPhase_inv hex
      have hw := withAsync_fields (syncedState p inbox) atl'
      have hs := syncedState_fields p inbox
      constructor
      · show p5.sync_counter = p.sync_counter + 1
        rw [hf5.2.2.2.2.1, hw.2.2.2.1, hs.2.2.2.1]
      · show p5.flush_count + 1 = p.flush_count + 1
        rw [hf5.2.2.2.2.2.1, hw.2.2.2.2, hs.2.2.2.2]

theorem pRun_flush_sync {h hA : Event → List Event} {fuel : Nat} {p : PTimeline}
    {inboxes : List (List Payload)} {q : PTimeline} (H : pRun h hA fuel p inboxes = some q) :
    q.flush_count + p.sync_counter = q.sync_counter + p.flush_count := by
  induction fuel generalizing p inboxes with
  | zero => simp [pRun] at H
  | succ fuel ih =>
    rw [pRun.eq_def] at H
    simp only [] at H
    by_cases h1 : p.time < p.stop_time
    · rw [if_pos h1] at H
      cases inboxes with
      | nil => cases H
      | cons ib rest =>
        cases hit : pIteration h hA fuel p ib with
        | none => simp only [hit] at H; exact Option.noConfusion H
        | some r =>
          simp only [hit] at H
          cases r with
          | breakLoop q' mt =>
            injection H with H'
            have hc := (pIteration_counters hit).1 q' mt rfl
            rw [← H']
            omega
          | continued q' mt st tr =>
            have hc := (pIteration_counters hit).2 q' mt st tr rfl
            have := ih H
            omega
    · rw [if_neg h1] at H
      injection H with H'
      rw [← H']
      omega

theorem removeFromList_invalidates (l : List Event) (e : Event) :
    ∀ x ∈ removeFromList l e, x.seq = e.seq → x.valid = false := by
  intro x hx hs
  simp only [removeFromList, List.mem_map] at hx
  obtain ⟨y, _, hy⟩ := hx
  by_cases h : y.seq = e.seq
  · rw [if_pos h] at hy
    rw [← hy]
  · rw [if_neg h] at hy
    rw [← hy] at hs
    exact absurd hs h

theorem runLoop_pairwise {h : Event → List Event} {fuel : Nat} {tl : Timeline}
    {q : Timeline} {tr : List Event} {b : Bool} (H : runLoop h fuel tl = some (q, tr, b)) :
    List.Pairwise (fun a c => a.time ≤ c.time) tr := by
  induction fuel generalizing tl q tr b with
  | zero => simp [runLoop] at H
  | succ fuel ih =>
    rw [runLoop] at H
    cases hp : pickMin tl.events with
    | none =>
      simp only [hp] at H
      simp only [Option.some.injEq, Prod.mk.injEq] at H
      obtain ⟨rfl, rfl, rfl⟩ := H
      simp
    | some pr =>
      obtain ⟨e, rest⟩ := pr
      simp only [hp] at H
      by_cases h1 : tl.stop_time ≤ (e.time : TimePS)
      · rw [if_pos h1] at H
        simp only [Option.some.injEq, Prod.mk.injEq] at H
        obtain ⟨rfl, rfl, rfl⟩ := H
        simp
      · rw [if_neg h1] at H
        by_cases h3 : tl.time ≤ (e.time : TimePS)
        · rw [if_pos h3] at H
          by_cases h2 : e.is_invalid
          · rw [if_pos h2] at H
            exact ih H
          · rw [if_neg h2] at H
            rw [Option.map_eq_some'] at H
            obtain ⟨⟨q', tr', b'⟩, Hrec, Heq⟩ := H
            simp only [Prod.mk.injEq] at Heq
            obtain ⟨rfl, rfl, rfl⟩ := Heq
            refine List.Pairwise.cons ?_ (ih Hrec)
            intro x hx
            have hinv := runLoop_inv Hrec
            have hxt := (hinv.2.1 x hx).2.2
            have ht : (Timeline.scheduleAll { tl with events := rest, time := (e.time : TimePS), run_counter := tl.run_counter + 1 } (h e)).time = (e.time : TimePS) :=
              (Timeline.scheduleAll_fields _ _).1
            rw [ht] at hxt
            exact_mod_cast hxt
        · rw [if_neg h3] at H
          cases H

theorem execPhase_pairwise {h : Event → List Event} {fuel : Nat} {p : PTimeline}
    {st : TimePS} {q : PTimeline} {tr : List Event} (H : execPhase h fuel p st = some (q, tr)) :
    List.Pairwise (fun a c => a.time ≤ c.time) tr := by
  induction fuel generalizing p q tr with
  | zero => simp [execPhase] at H
  | succ fuel ih =>
    rw [execPhase] at H
    cases hp : pickMin p.events with
    | none =>
      simp only [hp] at H
      simp only [Option.some.injEq, Prod.mk.injEq] at H
      obtain ⟨rfl, rfl⟩ := H
      simp
    | some pr =>
      obtain ⟨e, rest⟩ := pr
      simp only [hp] at H
      by_cases h1 : (e.time : TimePS) < st
      · rw [if_pos h1] at H
        by_cases h2 : e.is_invalid
        · rw [if_pos h2] at H
          exact ih H
        · rw [if_neg h2] at H
          by_cases h3 : p.time ≤ (e.time : TimePS)
          · rw [if_pos h3] at H
            rw [Option.map_eq_some'] at H
            obtain ⟨⟨q', tr'⟩, Hrec, Heq⟩ := H
            simp only [Prod.mk.injEq] at Heq
            obtain ⟨rfl, rfl⟩ := Heq
            refine List.Pairwise.cons ?_ (ih Hrec)
            intro x hx
            have hinv := execPhase_inv Hrec
            have hxt := (hinv.2.1 x hx).2.2
            have ht : ((h e).foldl PTimeline.schedule
                { p with toTimeline := { p.toTimeline with events := rest, time := (e.time : TimePS), run_counter := p.run_counter + 1 } }).time = (e.time : TimePS) :=
              (foldl_pschedule_fields _ _).1
            rw [ht] at hxt
            exact_mod_cast hxt
          · rw [if_neg h3] at H
            cases H
      · rw [if_neg h1] at H
        simp only [Option.some.injEq, Prod.mk.injEq] at H
        obtain ⟨rfl, rfl⟩ := H
        simp

theorem foldl_replace_cases {α β : Type} (g : α → β) (a : β) (l : List α) :
    List.foldl (fun _ x => g x) a l = a ∨ ∃ x ∈ l, List.foldl (fun _ x => g x) a l = g x := by
  induction l generalizing a with
  | nil => exact Or.inl rfl
  | cons b l ih =>
    simp only [List.foldl_cons]
    rcases ih (g b) with hcase | ⟨x, hx, hcase⟩
    · exact Or.inr ⟨b, List.mem_cons_self _ _, hcase⟩
    · exact Or.inr ⟨x, List.mem_cons_of_mem _ hx, hcase⟩

/-- C1: Simulated time is monotone non-decreasing throughout execution.  In a
successful sequential run every executed event was popped with
`time <= e.time` (the assert; a failing assert gives `none`), `time` is set to
each executed event's time, so the executed trace never decreases and the
final time is no earlier than the initial one.  In a parallel iteration that
proceeds past the termination check, the folded `min_time` satisfies
`min_time >= time` (asserted) before `time` advances to it, and the execute
phase again never rewinds.  Time never rewinds between any two steps of
either run loop. -/
theorem C1_monotone_time {h hA : Event → List Event} {fuel : Nat} :
    (∀ {tl q : Timeline} {tr : List Event} {b : Bool},
       runLoop h fuel tl = some (q, tr, b) →
       tl.time ≤ q.time ∧ (∀ x ∈ tr, tl.time ≤ (x.time : TimePS)) ∧
       List.Pairwise (fun a c => a.time ≤ c.time) tr) ∧
    (∀ {p : PTimeline} {inbox : List Payload} {q : PTimeline} {mt st : TimePS}
       {tr : List Event},
       pIteration h hA fuel p inbox = some (PIterResult.continued q mt st tr) →
       p.time ≤ mt ∧ p.time ≤ q.time ∧
       List.Pairwise (fun a c => a.time ≤ c.time) tr) := by
  constructor
  · intro tl q tr b H
    have hinv := runLoop_inv H
    exact ⟨hinv.1, fun x hx => (hinv.2.1 x hx).2.2, runLoop_pairwise H⟩
  · intro p inbox q mt st tr H
    rcases pIteration_elim H with ⟨hr, _, _⟩ | ⟨atl', p5, tr', hr, h1, h2, har, hex⟩
    · exact PIterResult.noConfusion hr
    · injection hr with hq hmt hst htr
      subst hq; subst hmt; subst htr
      have hinv := execPhase_inv hex
      have hw := withAsync_fields (syncedState p inbox) atl'
      have hs := syncedState_fields p inbox
      refine ⟨h1, ?_, execPhase_pairwise hex⟩
      show p.time ≤ p5.time
      calc p.time ≤ iterMinTime p inbox := h1
        _ = (withAsync (syncedState p inbox) atl').time := by rw [hw.1, hs.1]
        _ ≤ p5.time := hinv.1

/-- C5: In the sequential run loop, when the popped event's timestamp is at or
past `stop_time`, the event is re-inserted through `schedule` (so it is back
in the event list), the loop terminates immediately with an empty executed
trace, `run_counter` is unchanged, and `now()` stays at or below `stop_time`;
moreover any successful run started with `time <= stop_time` ends with
`now() <= stop_time`. -/
theorem C5_stop_boundary {h : Event → List Event} {fuel : Nat} {tl : Timeline}
    {e : Event} {rest : List Event}
    (hp : pickMin tl.events = some (e, rest))
    (hstop : tl.stop_time ≤ (e.time : TimePS))
    (hts : tl.time ≤ tl.stop_time) :
    runLoop h (fuel + 1) tl =
      some (Timeline.schedule { tl with events := rest } e, [], true) ∧
    e ∈ (Timeline.schedule { tl with events := rest } e).events ∧
    (Timeline.schedule { tl with events := rest } e).run_counter = tl.run_counter ∧
    (Timeline.schedule { tl with events := rest } e).now ≤ tl.stop_time ∧
    (∀ {tl' q : Timeline} {tr : List Event} {b : Bool},
       runLoop h fuel tl' = some (q, tr, b) → tl'.time ≤ tl'.stop_time →
       q.now ≤ tl'.stop_time) := by
  refine ⟨?_, ?_, ?_, ?_, ?_⟩
  · rw [runLoop]
    simp only [hp]
    rw [if_pos hstop]
  · simp [Timeline.schedule]
  · rfl
  · exact hts
  · intro tl' q tr b H hle
    have hinv := runLoop_inv H
    rcases foldl_replace_cases (fun x : Event => (x.time : TimePS)) tl'.time tr with hc | ⟨x, hx, hc⟩
    · show q.time ≤ tl'.stop_time
      rw [hinv.2.2.1, hc]; exact hle
    · show q.time ≤ tl'.stop_time
      rw [hinv.2.2.1, hc]
      exact le_of_lt (hinv.2.1 x hx).2.1

/-- C8: If an event is removed (lazily invalidated) before being popped, then
no later successful run — the sequential loop or the parallel execute phase —
ever executes it: every executed event has a different identity (insertion
sequence number) from the removed one, provided processes only create fresh
events. -/
theorem C8_removed_never_executes {h : Event → List Event} {fuel : Nat} {e : Event}
    (Hh : ∀ ev x, x ∈ h ev → x.seq ≠ e.seq) :
    (∀ {tl q : Timeline} {tr : List Event} {b : Bool},
       runLoop h fuel (tl.remove_event e) = some (q, tr, b) →
       ∀ x ∈ tr, x.seq ≠ e.seq) ∧
    (∀ {p : PTimeline} {st : TimePS} {q : PTimeline} {tr : List Event},
       execPhase h fuel (p.remove_event e) st = some (q, tr) →
       ∀ x ∈ tr, x.seq ≠ e.seq) := by
  constructor
  · intro tl q tr b H
    exact runLoop_no_invalid_seq (remove_event_invalidates tl e) Hh H
  · intro p st q tr H
    refine execPhase_no_invalid_seq ?_ Hh H
    intro x hx hs
    exact removeFromList_invalidates p.events e x hx hs

/-- C10: The stop-time boundary re-insertion goes through `Timeline.schedule`
and therefore increments `schedule_counter` a second time for the same event:
`schedule_counter` counts invocations, not distinct events (scheduling the
same event twice adds two), a run hitting the boundary with processes that
schedule nothing ends with exactly one extra count, and in general a boundary
run adds at least one. -/
theorem C10_boundary_double_count {fuel : Nat} {tl q : Timeline} {tr : List Event} :
    (∀ (tl' : Timeline) (e : Event),
       ((tl'.schedule e).schedule e).schedule_counter = tl'.schedule_counter + 2) ∧
    (runLoop (fun _ => []) fuel tl = some (q, tr, true) →
       q.schedule_counter = tl.schedule_counter + 1) ∧
    (∀ {h : Event → List Event} {q' : Timeline} {tr' : List Event},
       runLoop h fuel tl = some (q', tr', true) →
       tl.schedule_counter + 1 ≤ q'.schedule_counter) := by
  refine ⟨?_, ?_, ?_⟩
  · intro tl' e
    simp [Timeline.schedule]
  · intro H
    have hc := runLoop_counter_noNew H
    simpa using hc
  · intro h q' tr' H
    have hc := (runLoop_inv H).2.2.2.2.2
    simpa using hc

/-- C2: The implementation's scheme of piggy-backing each worker's local
minimum pending-event time (the minimum of its tracked outbound-buffer
timestamp, its queue head and its async sub-timeline's top, or infinity when
all are empty) into the all-to-all payloads and folding the received minima
over its own computes, on every worker, exactly the global minimum over all
workers — the same value as the spec's separate `allreduce` with MIN of the
local minima. -/
theorem C2_piggyback_equals_allreduce {ws : List PTimeline} {i : Nat}
    (hi : i < ws.length) :
    iterMinTime (ws.get ⟨i, hi⟩) (worldPayloads ws i) = specAllreduceMin ws := by
  unfold iterMinTime worldPayloads specAllreduceMin
  rw [List.map_map]
  have hcomp : (Prod.snd ∘ fun w : PTimeline => ((w.event_buffer.getD i [], w.localMin) : Payload))
      = PTimeline.localMin := rfl
  rw [hcomp, foldl_min_top]
  exact min_eq_right (foldl_min_le (List.mem_map_of_mem _ (ws.get_mem i hi)))

/-- C3: In every parallel iteration that passes the termination check, the
window is `sync_time = min(min_time + lookahead, stop_time)`, and the execute
phase — started at `time = min_time` — executes only valid events with
timestamps strictly below `sync_time` (invalid events are skipped, nothing at
or past `sync_time` runs), executes every event that was in the queue before
the iteration and is valid with timestamp below `sync_time`, and advances
`time` through exactly the executed events' timestamps starting from
`min_time`. -/
theorem C3_window_execution {h hA : Event → List Event} {fuel : Nat} {p : PTimeline}
    {inbox : List Payload} {q : PTimeline} {mt st : TimePS} {tr : List Event}
    (H : pIteration h hA fuel p inbox = some (PIterResult.continued q mt st tr)) :
    mt = iterMinTime p inbox ∧
    st = min (mt + (p.lookahead : TimePS)) p.stop_time ∧
    (∀ x ∈ tr, x.valid = true ∧ (x.time : TimePS) < st) ∧
    (∀ x ∈ p.events, x.valid = true → (x.time : TimePS) < st → x ∈ tr) ∧
    q.time = tr.foldl (fun _ x => (x.time : TimePS)) mt := by
  rcases pIteration_elim H with ⟨hr, _, _⟩ | ⟨atl', p5, tr', hr, h1, h2, har, hex⟩
  · exact PIterResult.noConfusion hr
  · injection hr with hq hmt hst htr
    subst hq; subst hmt; subst hst; subst htr
    have hinv := execPhase_inv hex
    have hw := withAsync_fields (syncedState p inbox) atl'
    have hs := syncedState_fields p inbox
    refine ⟨rfl, rfl, ?_, ?_, ?_⟩
    · intro x hx
      exact ⟨(hinv.2.1 x hx).1, (hinv.2.1 x hx).2.1⟩
    · intro x hx hv ht
      exact hinv.2.2.2.1 x (withAsync_mem (syncedState_mem hx)) hv ht
    · show p5.time = List.foldl (fun _ x => (x.time : TimePS)) (iterMinTime p inbox) tr
      rw [hinv.2.2.1, hw.1, hs.1]

/-- C6: A parallel iteration whose global minimum event time is at or past
`stop_time` breaks out of the loop right after the absorb step, executing no
event and leaving `run_counter` and `sync_counter` unchanged; in particular
when the local queue, the async sub-timeline and the outbound-buffer minimum
are all empty and every received payload carries an infinite minimum, the
global minimum is infinite, so a run in that state terminates after a single
iteration with zero events executed. -/
theorem C6_termination {h hA : Event → List Event} {fuel : Nat} :
    (∀ {p : PTimeline} {inbox : List Payload},
       p.stop_time ≤ iterMinTime p inbox → p.time ≤ iterMinTime p inbox →
       pIteration h hA fuel p inbox =
         some (PIterResult.breakLoop (absorbedState p inbox) (iterMinTime p inbox)) ∧
       (absorbedState p inbox).run_counter = p.run_counter ∧
       (absorbedState p inbox).sync_counter = p.sync_counter) ∧
    (∀ {p : PTimeline} {inbox : List Payload} {more : List (List Payload)},
       p.events = [] → p.async_tl.events = [] → p.buffer_min_ts = ⊤ →
       (∀ pl ∈ inbox, pl.2 = (⊤ : TimePS)) → p.time < p.stop_time →
       pRun h hA (fuel + 1) p (inbox :: more) = some (absorbedState p inbox) ∧
       (absorbedState p inbox).run_counter = p.run_counter ∧
       (absorbedState p inbox).sync_counter = p.sync_counter) := by
  have hbreak : ∀ {p : PTimeline} {inbox : List Payload},
      p.stop_time ≤ iterMinTime p inbox → p.time ≤ iterMinTime p inbox →
      pIteration h hA fuel p inbox =
        some (PIterResult.breakLoop (absorbedState p inbox) (iterMinTime p inbox)) := by
    intro p inbox hstop htime
    unfold pIteration
    have hf := absorbedState_fields p inbox
    rw [if_pos (by rw [hf.1]; exact htime), if_pos (by rw [hf.2.1]; exact hstop)]
  constructor
  · intro p inbox hstop htime
    exact ⟨hbreak hstop htime, (absorbedState_fields p inbox).2.2.1,
      (absorbedState_fields p inbox).2.2.2.1⟩
  · intro p inbox more h1 h2 h3 h4 h5
    have hmt : iterMinTime p inbox = ⊤ := iterMinTime_top h1 h2 h3 h4
    have hb := @hbreak p inbox (by rw [hmt]; exact le_top)
      (by rw [hmt]; exact le_top)
    refine ⟨?_, (absorbedState_fields p inbox).2.2.1, (absorbedState_fields p inbox).2.2.2.1⟩
    rw [pRun.eq_def]
    simp only []
    rw [if_pos h5]
    simp only [hb]

/-- C9: The quantum-manager flush hook runs exactly once per synchronization
iteration that passes the termination check (a continued iteration adds one
to both `sync_counter` and the flush count, a breaking iteration adds
neither), so at the end of a successful run the total number of flush
invocations equals the final `sync_counter` whenever they started equal. -/
theorem C9_flush_per_sync {h hA : Event → List Event} {fuel : Nat} :
    (∀ {p : PTimeline} {inbox : List Payload} {q : PTimeline} {mt st : TimePS}
       {tr : List Event},
       pIteration h hA fuel p inbox = some (PIterResult.continued q mt st tr) →
       q.sync_counter = p.sync_counter + 1 ∧ q.flush_count = p.flush_count + 1) ∧
    (∀ {p : PTimeline} {inbox : List Payload} {q : PTimeline} {mt : TimePS},
       pIteration h hA fuel p inbox = some (PIterResult.breakLoop q mt) →
       q.sync_counter = p.sync_counter ∧ q.flush_count = p.flush_count) ∧
    (∀ {fuel' : Nat} {p : PTimeline} {inboxes : List (List Payload)} {q : PTimeline},
       pRun h hA fuel' p inboxes = some q → p.flush_count = p.sync_counter →
       q.flush_count = q.sync_counter) := by
  refine ⟨?_, ?_, ?_⟩
  · intro p inbox q mt st tr H
    exact (pIteration_counters H).2 q mt st tr rfl
  · intro p inbox q mt H
    have hc := (pIteration_counters H).1 q mt rfl
    exact ⟨hc.1, hc.2.1⟩
  · intro fuel' p inboxes q H heq
    have hfs := pRun_flush_sync H
    omega

theorem getD_set_eq {α : Type} (l : List α) (i : Nat) (v d : α) (h : i < l.length) :
    (l.set i v).getD i d = v := by
  induction l generalizing i with
  | nil => simp at h
  | cons a l ih =>
    cases i with
    | zero => rfl
    | succ i =>
      simp only [List.set, List.getD, List.getElem?_cons_succ]
      have := ih i (by simpa using h)
      simpa [List.getD] using this

/-- C4 counterexample: with no foreign entities and the entity named c moved
to the async sub-timeline, scheduling an event whose owner is the string c
does not forward it to `Timeline.schedule` — the local queue and
`schedule_counter` are untouched — but imports it into the async sub-timeline
(with its owner resolved), refuting "for every other string owner the event
is treated as local and forwarded to Timeline.schedule". -/
theorem C4_counterexample :
    (PTimeline.schedule asyncState strCEvent).events = [] ∧
    (PTimeline.schedule asyncState strCEvent).schedule_counter = 0 ∧
    (asyncState.toTimeline.schedule strCEvent).events = [strCEvent] ∧
    (asyncState.toTimeline.schedule strCEvent).schedule_counter = 1 ∧
    (PTimeline.schedule asyncState strCEvent).toTimeline ≠
      asyncState.toTimeline.schedule strCEvent ∧
    ((PTimeline.schedule asyncState strCEvent).async_tl.events.map
      (fun x => x.process.owner)) = [Owner.entity "c"] := by
  refine ⟨rfl, rfl, rfl, rfl, ?_, rfl⟩
  decide

/-- C4 amended: `ParallelTimeline.schedule` routes by the owner: an entity
reference goes to the local queue through `Timeline.schedule` (counter
incremented); a string owner found in `foreign_entities` is appended to that
rank's outbound buffer with the counter incremented and the queue untouched;
a string owner not foreign but among the async sub-timeline's entities is
imported into the async sub-timeline, with no counter increment and the queue
untouched; any other string owner is treated as local and forwarded to
`Timeline.schedule`. -/
theorem C4_routing_amended {p : PTimeline} {e : Event} :
    (∀ n, e.process.owner = Owner.entity n →
       (PTimeline.schedule p e).events = p.events ++ [e] ∧
       (PTimeline.schedule p e).schedule_counter = p.schedule_counter + 1) ∧
    (∀ n tid, e.process.owner = Owner.str n →
       List.lookup n p.foreign_entities = some tid →
       (PTimeline.schedule p e).event_buffer =
         p.event_buffer.set tid ((p.event_buffer.getD tid []) ++ [e]) ∧
       (PTimeline.schedule p e).schedule_counter = p.schedule_counter + 1 ∧
       (PTimeline.schedule p e).events = p.events) ∧
    (∀ n, e.process.owner = Owner.str n →
       List.lookup n p.foreign_entities = none → n ∈ p.async_tl.entities →
       (PTimeline.schedule p e).async_tl = p.async_tl.import_event e ∧
       (PTimeline.schedule p e).schedule_counter = p.schedule_counter ∧
       (PTimeline.schedule p e).events = p.events) ∧
    (∀ n, e.process.owner = Owner.str n →
       List.lookup n p.foreign_entities = none → n ∉ p.async_tl.entities →
       (PTimeline.schedule p e).events = p.events ++ [e] ∧
       (PTimeline.schedule p e).schedule_counter = p.schedule_counter + 1) := by
  refine ⟨?_, ?_, ?_, ?_⟩
  · intro n ho
    unfold PTimeline.schedule
    rw [ho]
    exact ⟨rfl, rfl⟩
  · intro n tid ho hlk
    unfold PTimeline.schedule
    rw [ho]
    simp only [hlk]
    simp
  · intro n ho hlk hmem
    unfold PTimeline.schedule
    rw [ho]
    simp only [hlk]
    rw [if_pos hmem]
    exact ⟨rfl, rfl, rfl⟩
  · intro n ho hlk hmem
    unfold PTimeline.schedule
    rw [ho]
    simp only [hlk]
    rw [if_neg hmem]
    exact ⟨rfl, rfl⟩

/-- C4 amended witness: concrete instances of the foreign branch and the
async branch of the amended routing statement. -/
theorem C4_routing_amended_witness :
    ((sampleEvent 700 8 (Owner.str "b")).process.owner = Owner.str "b" ∧
     List.lookup "b" basePTimeline.foreign_entities = some 1 ∧
     (PTimeline.schedule basePTimeline (sampleEvent 700 8 (Owner.str "b"))).schedule_counter =
       basePTimeline.schedule_counter + 1) ∧
    (strCEvent.process.owner = Owner.str "c" ∧
     List.lookup "c" asyncState.foreign_entities = none ∧
     "c" ∈ asyncState.async_tl.entities ∧
     (PTimeline.schedule asyncState strCEvent).async_tl =
       asyncState.async_tl.import_event strCEvent) :=
  ⟨⟨rfl, by decide,
     (C4_routing_amended.2.1 "b" 1 rfl (by decide)).2.1⟩,
   ⟨rfl, by decide, by decide,
     (C4_routing_amended.2.2.1 "c" rfl (by decide) (by decide)).1⟩⟩

/-- C7 counterexample: importing a scheduled event whose owner is the string
c into the async sub-timeline mutates the event's process — the stored copy's
owner is the resolved entity reference, no longer the original string —
refuting "the event's process, including its owner, ... is left unchanged by
... import into the async sub-timeline". -/
theorem C7_counterexample :
    strCEvent.process.owner = Owner.str "c" ∧
    ((baseATimeline.import_event strCEvent).events.map (fun x => x.process.owner))
      = [Owner.entity "c"] ∧
    Owner.entity "c" ≠ Owner.str "c" := by
  refine ⟨rfl, rfl, ?_⟩
  decide

/-- C7 amended: after scheduling, kernel operations store events unchanged —
`Timeline.schedule` appends the event itself, and buffering a foreign-owned
event appends the event itself to the outbound buffer — except that
`AsyncParallelTimeline.import_event` replaces a string owner by the resolved
entity reference of the same name, leaving every other field (time, priority,
identity, validity, method selector, arguments) unchanged; an event whose
owner is already an entity reference is imported unchanged. -/
theorem C7_frame_amended {tl : Timeline} {a : ATimeline} {p : PTimeline} {e : Event} :
    (tl.schedule e).events = tl.events ++ [e] ∧
    (∀ n tid, e.process.owner = Owner.str n →
       List.lookup n p.foreign_entities = some tid → tid < p.event_buffer.length →
       (PTimeline.schedule p e).event_buffer.getD tid [] =
         p.event_buffer.getD tid [] ++ [e]) ∧
    (∀ n, e.process.owner = Owner.entity n →
       (a.import_event e).events = a.events ++ [e]) ∧
    (∀ n, e.process.owner = Owner.str n →
       (a.import_event e).events =
         a.events ++ [{ e with process := { e.process with owner := Owner.entity n } }]) := by
  refine ⟨?_, ?_, ?_, ?_⟩
  · simp [Timeline.schedule]
  · intro n tid ho hlk hlen
    unfold PTimeline.schedule
    rw [ho]
    simp only [hlk]
    exact getD_set_eq _ _ _ _ hlen
  · intro n ho
    unfold ATimeline.import_event
    rw [ho]
  · intro n ho
    unfold ATimeline.import_event
    rw [ho]

/-- C7 amended witness: a concrete foreign buffering that stores the event
unchanged, and a concrete import that resolves the string owner c. -/
theorem C7_frame_amended_witness :
    ((sampleEvent 700 8 (Owner.str "b")).process.owner = Owner.str "b" ∧
     List.lookup "b" basePTimeline.foreign_entities = some 1 ∧
     1 < basePTimeline.event_buffer.length ∧
     (PTimeline.schedule basePTimeline (sampleEvent 700 8 (Owner.str "b"))).event_buffer.getD 1 []
       = basePTimeline.event_buffer.getD 1 [] ++ [sampleEvent 700 8 (Owner.str "b")]) ∧
    (strCEvent.process.owner = Owner.str "c" ∧
     (baseATimeline.import_event strCEvent).events =
       baseATimeline.events ++
         [{ strCEvent with
              process := { strCEvent.process with owner := Owner.entity "c" } }]) :=
  ⟨⟨rfl, by decide, by decide,
     (@C7_frame_amended baseTimeline baseATimeline basePTimeline
         (sampleEvent 700 8 (Owner.str "b"))).2.1 "b" 1 rfl
       (by decide) (by decide)⟩,
   ⟨rfl, (@C7_frame_amended baseTimeline baseATimeline basePTimeline
       strCEvent).2.2.2 "c" rfl⟩⟩

/-- C1 witness: a concrete sequential run (one event at 5 ps) and a concrete
continued parallel iteration (worker 0, empty inbox) at which the
monotonicity theorem applies. -/
theorem C1_monotone_time_witness :
    (runLoop (fun _ => []) 5 seq1Timeline =
       some ({ events := [], time := ((5 : Nat) : TimePS), stop_time := ((30 : Nat) : TimePS)
               schedule_counter := 0, run_counter := 1 },
         [sampleEvent 5 1 (Owner.entity "a")], false) ∧
     seq1Timeline.time ≤ ((5 : Nat) : TimePS)) ∧
    (pIteration (fun _ => []) (fun _ => []) 10 worker0 emptyInbox =
       some (PIterResult.continued w0Final ((100 : Nat) : TimePS) ((600 : Nat) : TimePS)
         [sampleEvent 100 5 (Owner.entity "a")]) ∧
     worker0.time ≤ w0Final.time) := by
  have H1 : runLoop (fun _ => []) 5 seq1Timeline =
      some ({ events := [], time := ((5 : Nat) : TimePS), stop_time := ((30 : Nat) : TimePS)
              schedule_counter := 0, run_counter := 1 },
        [sampleEvent 5 1 (Owner.entity "a")], false) := rfl
  have H2 : pIteration (fun _ => []) (fun _ => []) 10 worker0 emptyInbox =
      some (PIterResult.continued w0Final ((100 : Nat) : TimePS) ((600 : Nat) : TimePS)
        [sampleEvent 100 5 (Owner.entity "a")]) := rfl
  exact ⟨⟨H1, ((@C1_monotone_time (fun _ => []) (fun _ => []) 5).1 H1).1⟩,
    ⟨H2, ((@C1_monotone_time (fun _ => []) (fun _ => []) 10).2 H2).2.1⟩⟩

/-- C2 witness: a concrete two-worker world at which the piggy-back minimum
equals the spec's allreduce minimum. -/
theorem C2_piggyback_witness :
    0 < ([worker0, worker1] : List PTimeline).length ∧
    iterMinTime (([worker0, worker1] : List PTimeline).get ⟨0, by decide⟩)
        (worldPayloads [worker0, worker1] 0) =
      specAllreduceMin [worker0, worker1] :=
  ⟨by decide, @C2_piggyback_equals_allreduce [worker0, worker1] 0 (by decide)⟩

/-- C3 witness: the concrete continued iteration of worker 0, its window
`600 = min(100 + 500, 1000)`, and the queued valid event at 100 ps being
among the executed ones. -/
theorem C3_window_witness :
    pIteration (fun _ => []) (fun _ => []) 10 worker0 emptyInbox =
      some (PIterResult.continued w0Final ((100 : Nat) : TimePS) ((600 : Nat) : TimePS)
        [sampleEvent 100 5 (Owner.entity "a")]) ∧
    ((600 : Nat) : TimePS) =
      min (((100 : Nat) : TimePS) + (worker0.lookahead : TimePS)) worker0.stop_time ∧
    sampleEvent 100 5 (Owner.entity "a") ∈ [sampleEvent 100 5 (Owner.entity "a")] := by
  have H : pIteration (fun _ => []) (fun _ => []) 10 worker0 emptyInbox =
      some (PIterResult.continued w0Final ((100 : Nat) : TimePS) ((600 : Nat) : TimePS)
        [sampleEvent 100 5 (Owner.entity "a")]) := rfl
  exact ⟨H, (C3_window_execution H).2.1,
    (C3_window_execution H).2.2.2.1 (sampleEvent 100 5 (Owner.entity "a"))
      (by decide) rfl (by decide)⟩

/-- C5 witness: the concrete timeline with one event exactly at the stop
time: popped, re-scheduled, run ends with empty trace and boundary flag. -/
theorem C5_stop_boundary_witness :
    pickMin boundaryTimeline.events = some (sampleEvent 1000 2 (Owner.entity "a"), []) ∧
    boundaryTimeline.stop_time ≤ ((1000 : Nat) : TimePS) ∧
    boundaryTimeline.time ≤ boundaryTimeline.stop_time ∧
    runLoop (fun _ => []) 5 boundaryTimeline =
      some (Timeline.schedule { boundaryTimeline with events := [] }
        (sampleEvent 1000 2 (Owner.entity "a")), [], true) := by
  have Hp : pickMin boundaryTimeline.events =
      some (sampleEvent 1000 2 (Owner.entity "a"), []) := rfl
  exact ⟨Hp, by decide, by decide,
    (C5_stop_boundary Hp (by decide) (by decide)).1⟩

/-- C6 witness: the concrete empty worker with an all-infinite inbox: the run
terminates in one iteration. -/
theorem C6_termination_witness :
    basePTimeline.events = [] ∧ basePTimeline.async_tl.events = [] ∧
    basePTimeline.buffer_min_ts = ⊤ ∧ basePTimeline.time < basePTimeline.stop_time ∧
    pRun (fun _ => []) (fun _ => []) 3 basePTimeline [emptyInbox] =
      some (absorbedState basePTimeline emptyInbox) :=
  ⟨rfl, rfl, rfl, by decide,
   ((@C6_termination (fun _ => []) (fun _ => []) 2).2 rfl rfl rfl
     (by decide) (by decide)).1⟩

/-- C8 witness: after removing the event at 5 ps, the concrete run executes
only the event at 10 ps, whose identity differs from the removed one. -/
theorem C8_removed_witness :
    runLoop (fun _ => []) 6 (removeTimeline.remove_event (sampleEvent 5 1 (Owner.entity "a"))) =
      some ({ events := [], time := ((10 : Nat) : TimePS), stop_time := ((30 : Nat) : TimePS)
              schedule_counter := 0, run_counter := 1 },
        [sampleEvent 10 0 (Owner.entity "a")], false) ∧
    (sampleEvent 10 0 (Owner.entity "a")).seq ≠ (sampleEvent 5 1 (Owner.entity "a")).seq := by
  have H : runLoop (fun _ => []) 6
      (removeTimeline.remove_event (sampleEvent 5 1 (Owner.entity "a"))) =
      some ({ events := [], time := ((10 : Nat) : TimePS), stop_time := ((30 : Nat) : TimePS)
              schedule_counter := 0, run_counter := 1 },
        [sampleEvent 10 0 (Owner.entity "a")], false) := rfl
  exact ⟨H,
    (@C8_removed_never_executes (fun _ => []) 6 (sampleEvent 5 1 (Owner.entity "a"))
        (by simp)).1 H (sampleEvent 10 0 (Owner.entity "a")) (by decide)⟩

/-- C9 witness: the concrete continued iteration adds one to both counters,
and the concrete empty run ends with flush count equal to sync count. -/
theorem C9_flush_witness :
    pIteration (fun _ => []) (fun _ => []) 10 worker0 emptyInbox =
      some (PIterResult.continued w0Final ((100 : Nat) : TimePS) ((600 : Nat) : TimePS)
        [sampleEvent 100 5 (Owner.entity "a")]) ∧
    w0Final.sync_counter = worker0.sync_counter + 1 ∧
    w0Final.flush_count = worker0.flush_count + 1 ∧
    (pRun (fun _ => []) (fun _ => []) 3 basePTimeline [emptyInbox] =
       some (absorbedState basePTimeline emptyInbox) ∧
     (absorbedState basePTimeline emptyInbox).flush_count =
       (absorbedState basePTimeline emptyInbox).sync_counter) := by
  have H : pIteration (fun _ => []) (fun _ => []) 10 worker0 emptyInbox =
      some (PIterResult.continued w0Final ((100 : Nat) : TimePS) ((600 : Nat) : TimePS)
        [sampleEvent 100 5 (Owner.entity "a")]) := rfl
  have HR : pRun (fun _ => []) (fun _ => []) 3 basePTimeline [emptyInbox] =
      some (absorbedState basePTimeline emptyInbox) := rfl
  exact ⟨H, ((@C9_flush_per_sync (fun _ => []) (fun _ => []) 10).1 H).1,
    ((@C9_flush_per_sync (fun _ => []) (fun _ => []) 10).1 H).2,
    ⟨HR, (@C9_flush_per_sync (fun _ => []) (fun _ => []) 10).2.2 HR rfl⟩⟩

/-- C10 witness: the concrete boundary run ends with exactly one extra
schedule count for the re-inserted event. -/
theorem C10_boundary_witness :
    runLoop (fun _ => []) 5 boundaryTimeline = some (bFinal, [], true) ∧
    bFinal.schedule_counter = boundaryTimeline.schedule_counter + 1 := by
  have H : runLoop (fun _ => []) 5 boundaryTimeline = some (bFinal, [], true) := rfl
  exact ⟨H, (@C10_boundary_double_count 5 boundaryTimeline bFinal []).2.1 H⟩
